import Mathlib

/-!  Verification of the publication parser and DOI finder (streamlit_app.py).

The Python source is shallowly embedded.  Strings are modelled as List Char,
with the regex classes \w and \s, str.lower, str.strip and str.isdigit taken
at their ASCII meaning.  The regex helpers used by the source are translated
into executable functions, difflib.SequenceMatcher (isjunk=None, autojunk
enabled) is modelled in full, and the single outbound HTTP request of
search_crossref_doi is made explicit as an argument describing its outcome.
Similarity scores are exact rationals; the float literal 0.85 is modelled as
the rational 17/20. -/

/-- The whitespace class of Python's regex \s and str.strip, ASCII part:
space, tab, newline, carriage return, vertical tab, form feed. -/
def isSpaceChar (c : Char) : Bool :=
  c.toNat == 32 || c.toNat == 9 || c.toNat == 10 || c.toNat == 13 ||
    c.toNat == 11 || c.toNat == 12

/-- The word class of Python's regex \w, ASCII part: letters, digits, underscore. -/
def isWordChar (c : Char) : Bool := c.isAlphanum || c == '_'

/-- Python str.rstrip() on a character list. -/
def rstripWs (cs : List Char) : List Char := (cs.reverse.dropWhile isSpaceChar).reverse

/-- Python str.strip() on a character list. -/
def stripWs (cs : List Char) : List Char := rstripWs (cs.dropWhile isSpaceChar)

/-- Python str.rstrip(ch) on a character list. -/
def rstripCh (ch : Char) (cs : List Char) : List Char :=
  (cs.reverse.dropWhile (fun c => c == ch)).reverse

/-- Python str.strip(ch) on a character list. -/
def stripCh (ch : Char) (cs : List Char) : List Char :=
  rstripCh ch (cs.dropWhile (fun c => c == ch))

/-- Python slicing s[a:b] for lists (empty when b ≤ a). -/
def sliceL (cs : List Char) (a b : Nat) : List Char := (cs.drop a).take (b - a)

/-- One character of re.sub(r'[^\w\s-]', ' ', text): characters that are not
word characters, whitespace or hyphens become a space. -/
def substNonWord (c : Char) : Char :=
  if isWordChar c || isSpaceChar c || c == '-' then c else ' '

/-- re.sub(r'\s+', ' ', text): each maximal whitespace run becomes one space.
The Bool argument records whether the previous character was whitespace. -/
def collapseWs (prev : Bool) : List Char → List Char
  | [] => []
  | c :: cs =>
    if isSpaceChar c then
      if prev then collapseWs true cs else ' ' :: collapseWs true cs
    else c :: collapseWs false cs

/-- Python str.lower, ASCII part. -/
def pyLower (cs : List Char) : List Char := cs.map Char.toLower

/-- streamlit_app.py lines 8-12 (clean_text_for_comparison):
text = re.sub(r'[^\w\s-]', ' ', text); text = re.sub(r'\s+', ' ', text);
return text.lower().strip() -/
def clean_text_for_comparison (s : String) : String :=
  String.mk (stripWs (pyLower (collapseWs false (s.data.map substNonWord))))

/-- The normalization described by claim C2, following the claim's words:
characters that are not word characters, whitespace or hyphens are REMOVED
(instead of replaced), then whitespace runs are collapsed to one space, the
result lower-cased and trimmed. -/
def removeNonWordClean (s : String) : String :=
  String.mk (stripWs (pyLower (collapseWs false
    (s.data.filter (fun c => isWordChar c || isSpaceChar c || c == '-')))))

/-- Maximal whitespace-free words of a character list, in order. -/
def wordsOf : List Char → List (List Char)
  | [] => []
  | c :: cs =>
    if isSpaceChar c then wordsOf cs
    else (c :: cs.takeWhile (fun d => !(isSpaceChar d))) ::
      wordsOf (cs.dropWhile (fun d => !(isSpaceChar d)))
termination_by l => l.length
decreasing_by
  · simp only [List.length_cons]
    omega
  · have h : (cs.dropWhile (fun d => !(isSpaceChar d))).length ≤ cs.length :=
      (List.dropWhile_sublist _).length_le
    simp only [List.length_cons]
    omega

/-- Words joined by single spaces. -/
def joinSp : List (List Char) → List Char
  | [] => []
  | [w] => w
  | w :: ws => w ++ ' ' :: joinSp ws

/-- Claim C2 as amended: non word/whitespace/hyphen characters are replaced by
a space, whitespace runs collapse to a single space, letters are lower-cased
and the ends are trimmed — stated through the words view: the result is the
sequence of lower-cased words joined by single spaces. -/
def amendedClean (s : String) : String :=
  String.mk (joinSp (wordsOf (pyLower (s.data.map substNonWord))))

/-- Number of occurrences of c in b. -/
def countCh (b : List Char) (c : Char) : Nat := (b.filter (fun d => d == c)).length

/-- difflib autojunk (SequenceMatcher.__chain_b with isjunk=None, autojunk=True):
when len(b) >= 200, elements occurring more than len(b)//100 + 1 times are
dropped from b2j ("popular" elements). -/
def popularCh (b : List Char) (c : Char) : Bool :=
  decide (200 ≤ b.length) && decide (b.length / 100 + 1 < countCh b c)

/-- Can position j of b take part in a match with character c inside the
window [blo, bhi)?  This mirrors membership of j in b2j[c] together with the
bounds checks "if j < blo: continue" and "if j >= bhi: break". -/
def eligJ (b : List Char) (c : Char) (blo bhi j : Nat) : Bool :=
  decide (blo ≤ j) && decide (j < bhi) && decide (j < b.length) &&
    (b.getD j ' ' == c) && !(popularCh b c)

/-- One row of find_longest_match's dynamic programming: the length of the
matching run ending at (i, j), from the previous row
(k = newj2len[j] = j2len.get(j-1, 0) + 1). -/
def rowRun (prev : Nat → Nat) (el : Nat → Bool) (j : Nat) : Nat :=
  if el j then (if j == 0 then 0 else prev (j - 1)) + 1 else 0

/-- The running best (besti, bestj, bestsize), updated along ascending j
exactly when k > bestsize. -/
def bestUpd (i : Nat) (kf : Nat → Nat) : List Nat → Nat × Nat × Nat → Nat × Nat × Nat
  | [], best => best
  | j :: js, (bi, bj, bs) =>
    bestUpd i kf js (if bs < kf j then (i + 1 - kf j, j + 1 - kf j, kf j) else (bi, bj, bs))

/-- State of the find_longest_match dynamic programming. -/
structure FlmState where
  j2len : Nat → Nat
  best : Nat × Nat × Nat

/-- Processing of row i (one iteration of "for i in range(alo, ahi)"). -/
def flmRow (a b : List Char) (blo bhi : Nat) (st : FlmState) (i : Nat) : FlmState :=
  let el := eligJ b (a.getD i ' ') blo bhi
  let kf := rowRun st.j2len el
  { j2len := kf, best := bestUpd i kf ((List.range' blo (bhi - blo)).filter el) st.best }

/-- First pair of while loops after the DP ("Extend the best by non-junk
elements on each end").  bjunk is empty since isjunk=None, so their junk
conditions hold trivially and the later junk-extension loops never fire; the
fuel argument dominates the number of steps. -/
def extendLeftNJ (a b : List Char) (alo blo : Nat) : Nat → Nat × Nat × Nat → Nat × Nat × Nat
  | 0, best => best
  | fuel + 1, (bi, bj, bs) =>
    if decide (alo < bi) && decide (blo < bj) &&
        (a.getD (bi - 1) ' ' == b.getD (bj - 1) ' ') then
      extendLeftNJ a b alo blo fuel (bi - 1, bj - 1, bs + 1)
    else (bi, bj, bs)

/-- Symmetric right extension loop. -/
def extendRightNJ (a b : List Char) (ahi bhi : Nat) : Nat → Nat × Nat × Nat → Nat × Nat × Nat
  | 0, best => best
  | fuel + 1, (bi, bj, bs) =>
    if decide (bi + bs < ahi) && decide (bj + bs < bhi) &&
        (a.getD (bi + bs) ' ' == b.getD (bj + bs) ' ') then
      extendRightNJ a b ahi bhi fuel (bi, bj, bs + 1)
    else (bi, bj, bs)

/-- difflib SequenceMatcher.find_longest_match on the window a[alo:ahi],
b[blo:bhi], with isjunk=None. -/
def find_longest_match (a b : List Char) (alo ahi blo bhi : Nat) : Nat × Nat × Nat :=
  let dp := (List.range' alo (ahi - alo)).foldl (flmRow a b blo bhi)
    { j2len := fun _ => 0, best := (alo, blo, 0) }
  extendRightNJ a b ahi bhi a.length (extendLeftNJ a b alo blo a.length dp.best)

/-- Total size of all matching blocks (get_matching_blocks): recursion on the
windows on each side of the longest match; merging adjacent blocks does not
change the total.  The fuel dominates the recursion depth, which is bounded
by the a-window length. -/
def matchTotal : Nat → List Char → List Char → Nat → Nat → Nat → Nat → Nat
  | 0, _, _, _, _, _, _ => 0
  | fuel + 1, a, b, alo, ahi, blo, bhi =>
    if decide (alo < ahi) && decide (blo < bhi) then
      let t := find_longest_match a b alo ahi blo bhi
      if 0 < t.2.2 then
        matchTotal fuel a b alo t.1 blo t.2.1 + t.2.2 +
          matchTotal fuel a b (t.1 + t.2.2) ahi (t.2.1 + t.2.2) bhi
      else 0
    else 0

/-- difflib SequenceMatcher(None, x, y).ratio() as an exact rational:
2*M/(len(a)+len(b)), and 1 when both strings are empty (_calculate_ratio). -/
def simScore (x y : String) : ℚ :=
  let a := x.data
  let b := y.data
  if a.length + b.length == 0 then 1
  else (2 * (matchTotal (a.length + 1) a b 0 a.length 0 b.length : ℚ)) /
    ((a.length : ℚ) + (b.length : ℚ))

/-- Row eligibility in the self-comparison full-window DP. -/
def eligRowD (a : List Char) (i j : Nat) : Bool := eligJ a (a.getD i ' ') 0 a.length j

/-- DP run values for the self comparison: rLen a (i+1) j is the length of the
matching run ending at row i, column j. -/
def rLen (a : List Char) : Nat → Nat → Nat
  | 0, _ => 0
  | i + 1, j => if eligRowD a i j then (if j == 0 then 0 else rLen a i (j - 1)) + 1 else 0

/-- Diagonal positions usable by the self-comparison DP (in range, not popular). -/
def okD (a : List Char) (j : Nat) : Bool :=
  decide (j < a.length) && !(popularCh a (a.getD j ' '))

/-- Length of the diagonal run ending at position j in the self comparison. -/
def dsr (a : List Char) : Nat → Nat
  | 0 => if okD a 0 then 1 else 0
  | j + 1 => if okD a (j + 1) then dsr a j + 1 else 0

/-- Largest diagonal run ending before row i. -/
def maxDsr (a : List Char) : Nat → Nat
  | 0 => 0
  | i + 1 => max (maxDsr a i) (dsr a i)

/-- The DP state after the first i rows of the self comparison (full windows,
b = a). -/
def selfState (a : List Char) (i : Nat) : FlmState :=
  (List.range' 0 i).foldl (flmRow a a 0 a.length) { j2len := fun _ => 0, best := (0, 0, 0) }

/-- re.match(r'(\d{4})\s*-\s*', entry): the year group and the match end. -/
def parseMarker (cs : List Char) : Option (List Char × Nat) :=
  match cs with
  | c1 :: c2 :: c3 :: c4 :: rest =>
    if c1.isDigit && c2.isDigit && c3.isDigit && c4.isDigit then
      let rest1 := rest.dropWhile isSpaceChar
      match rest1 with
      | '-' :: rest2 =>
        let rest3 := rest2.dropWhile isSpaceChar
        some ([c1, c2, c3, c4],
          4 + (rest.length - rest1.length) + 1 + (rest2.length - rest3.length))
      | _ => none
    else none
  | _ => none

/-- Match of r'"([^"]+)"' anchored at the head: the quoted group. -/
def quotedHere (cs : List Char) : Option (List Char) :=
  match cs with
  | '"' :: rest =>
    let grp := rest.takeWhile (fun c => !(c == '"'))
    if grp.length == 0 then none
    else
      match rest.drop grp.length with
      | '"' :: _ => some grp
      | _ => none
  | _ => none

/-- re.search(r'"([^"]+)"', entry): position and group of the leftmost match. -/
def titleHuntAux : List Char → Nat → Option (Nat × List Char)
  | [], _ => none
  | c :: rest, pos =>
    match quotedHere (c :: rest) with
    | some grp => some (pos, grp)
    | none => titleHuntAux rest (pos + 1)

/-- The title match: start position, group, end position. -/
def titleHunt (cs : List Char) : Option (Nat × List Char × Nat) :=
  (titleHuntAux cs 0).map (fun pg => (pg.1, pg.2, pg.1 + pg.2.length + 2))

/-- One parsed publication record. -/
structure Pub where
  Year : String
  Authors : String
  Title : String
  Venue : String
deriving DecidableEq

/-- The body of the for loop in extract_publications (lines 58-88); no
operation in it can raise, so the try/except is dead code. -/
def parseEntry (chunk : List Char) : Option Pub :=
  let entry := stripWs chunk
  if entry.isEmpty then none
  else
    match parseMarker entry with
    | none => none
    | some (year, yEnd) =>
      match titleHunt entry with
      | none => none
      | some (tStart, grp, tEnd) =>
        some { Year := String.mk year
               Authors := String.mk (rstripCh '.' (stripWs (sliceL entry yEnd tStart)))
               Title := String.mk (stripWs grp)
               Venue := String.mk (stripCh '.' (stripWs (entry.drop tEnd))) }

/-- Does the lookahead marker (?=\d{4}\s*-\s*) match at position p? -/
def markerAt (text : List Char) (p : Nat) : Bool := (parseMarker (text.drop p)).isSome

/-- All split positions of re.split(r'(?=\d{4}\s*-\s*)', text). -/
def cutPositions (text : List Char) : List Nat :=
  (List.range text.length).filter (markerAt text)

/-- Segments between consecutive split positions. -/
def piecesFrom (text : List Char) : Nat → List Nat → List (List Char)
  | prev, [] => [text.drop prev]
  | prev, p :: ps => sliceL text prev p :: piecesFrom text p ps

/-- re.split(r'(?=\d{4}\s*-\s*)', text): the pattern is zero-width, so the
text is cut at every position where the lookahead matches. -/
def reSplitMarker (text : List Char) : List (List Char) :=
  piecesFrom text 0 (cutPositions text)

/-- streamlit_app.py lines 53-90 (extract_publications) on a character list. -/
def extractPubsL (text : List Char) : List Pub :=
  (reSplitMarker text).filterMap parseEntry

/-- streamlit_app.py lines 53-90 (extract_publications). -/
def extract_publications (s : String) : List Pub := extractPubsL s.data

/-- A valid entry in the sense of claim C4: the leading year-hyphen marker and
a double-quoted title are present (checked on the stripped entry, as the
parser does). -/
def validEntry (e : List Char) : Bool :=
  (parseMarker (stripWs e)).isSome && (titleHunt (stripWs e)).isSome

/-- Start offsets of concatenated entries. -/
def entryStarts (off : Nat) : List (List Char) → List Nat
  | [] => []
  | e :: es => off :: entryStarts (off + e.length) es

/-- One CrossRef work item, restricted to the fields the code reads.
title models the "title" key (a list of strings) when present; DOI the "DOI"
key when present; publishedPrint the "published-print" key when present,
which in turn holds the "date-parts" key when present — a list of lists whose
entries are taken after Python's str(). -/
structure CRWork where
  title : Option (List String)
  DOI : Option String
  publishedPrint : Option (Option (List (List String)))
deriving DecidableEq

/-- The outcome of the requests.get call as seen by search_crossref_doi: a
raised exception, or a response with a status code and — when response.json()
and the message/items path succeed — the list of items. -/
inductive HttpOutcome where
  | exn : HttpOutcome
  | resp (status : Nat) (body : Except Unit (List CRWork)) : HttpOutcome

/-- str(result["published-print"].get("date-parts", [[""]])[0][0]): the year
string, or an IndexError (propagated to the except handler) when date-parts
is present but degenerate. -/
def pubYearE : Option (List (List String)) → Except Unit String
  | none => .ok ""
  | some [] => .error ()
  | some ([] :: _) => .error ()
  | some ((y :: _) :: _) => .ok y

/-- The candidate loop of search_crossref_doi (lines 34-47).  .ok s is a
normal return (s = "" when the loop runs out and line 48 returns), .error ()
an exception reaching the surrounding try. -/
def searchLoop (inputClean year : String) : List CRWork → Except Unit String
  | [] => .ok ""
  | w :: ws =>
    match w.title with
    | none => searchLoop inputClean year ws
    | some [] => searchLoop inputClean year ws
    | some (t :: _) =>
      if (17 : ℚ) / 20 < simScore (clean_text_for_comparison t) inputClean then
        match w.publishedPrint with
        | none => .ok (w.DOI.getD "")
        | some dp =>
          if year == "" then .ok (w.DOI.getD "")
          else
            match pubYearE dp with
            | .error u => .error u
            | .ok py => if py == year then .ok (w.DOI.getD "") else searchLoop inputClean year ws
      else searchLoop inputClean year ws

/-- streamlit_app.py lines 14-51 (search_crossref_doi).  The network call is
made explicit: outcome describes what requests.get and the response parsing
produced.  authors is accepted and ignored, as in the source, which never
uses it in the query parameters. -/
def search_crossref_doi (title authors year : String) (outcome : HttpOutcome) : String :=
  let clean_title := String.mk ((stripWs title.data).map (fun c => if c == '\n' then ' ' else c))
  match outcome with
  | .exn => ""
  | .resp status body =>
    if status == 200 then
      match body with
      | .error _ => ""
      | .ok items =>
        if items.isEmpty then ""
        else
          match searchLoop (clean_text_for_comparison clean_title) year items with
          | .ok s => s
          | .error _ => ""
    else ""

/-- Total year extraction on well-formed published-print values (agrees with
pubYearE wherever the latter does not raise). -/
def pubYearD (dp : Option (List (List String))) : String :=
  ((dp.getD [[""]]).headD []).headD ""

/-- No degenerate date-parts: the shape on which the candidate loop cannot raise. -/
def wellFormedPP (w : CRWork) : Bool :=
  match w.publishedPrint with
  | some (some ll) => !(ll.isEmpty) && !((ll.headD []).isEmpty)
  | _ => true

/-- Acceptance predicate of the candidate loop (spec 4.2 steps a-f): a usable
title, similarity above 0.85 and, when a year hint is given and the candidate
carries a published-print field, an extracted year equal to the hint. -/
def acceptsCandidate (inputClean year : String) (w : CRWork) : Bool :=
  match w.title with
  | some (t :: _) =>
    decide ((17 : ℚ) / 20 < simScore (clean_text_for_comparison t) inputClean) &&
      (year == "" || (match w.publishedPrint with
                      | none => true
                      | some dp => pubYearD dp == year))
  | _ => false

/-- Does the candidate carry a structured print-publication year? -/
def hasStructYear (w : CRWork) : Bool :=
  match w.publishedPrint with
  | some (some ((_ :: _) :: _)) => true
  | _ => false

/-- streamlit_app.py lines 92-96 (create_doi_url). -/
def create_doi_url (doi : String) : String :=
  if !(doi.data.isEmpty) && ("10.".data.isPrefixOf doi.data) then
    "https://doi.org/" ++ doi
  else ""

/-- The hypothesis of claim C9, from its words: the two titles differ only in
punctuation (characters outside word/whitespace/hyphen) and letter case. -/
def differOnlyPunctCase (x y : String) : Bool :=
  ((x.data.filter (fun c => isWordChar c || isSpaceChar c || c == '-')).map Char.toLower)
    == ((y.data.filter (fun c => isWordChar c || isSpaceChar c || c == '-')).map Char.toLower)

/-- The normalized input title used by search_crossref_doi's loop:
clean_text_for_comparison(title.strip().replace('\n', ' ')). -/
def inputTitleClean (title : String) : String :=
  clean_text_for_comparison
    (String.mk ((stripWs title.data).map (fun c => if c == '\n' then ' ' else c)))

/-! ## Claim C10: the DOI URL formatter -/

/-- Claim C10: create_doi_url maps d to "https://doi.org/" ++ d exactly when d
is non-empty and begins with "10.", and to the empty string otherwise; in
particular on "10.1000/xyz", "" and "invalid". -/
theorem c10_create_doi_url_spec :
    (∀ d : String, (d ≠ "" ∧ ∃ r : String, d = "10." ++ r) →
      create_doi_url d = "https://doi.org/" ++ d) ∧
    (∀ d : String, ¬(d ≠ "" ∧ ∃ r : String, d = "10." ++ r) → create_doi_url d = "") ∧
    create_doi_url "10.1000/xyz" = "https://doi.org/10.1000/xyz" ∧
    create_doi_url "" = "" ∧ create_doi_url "invalid" = "" := by
  refine ⟨?_, ?_, by decide, by decide, by decide⟩
  · rintro d ⟨-, r, rfl⟩
    have hpre : "10.".data.isPrefixOf ("10." ++ r).data = true := by
      simp [String.data_append, List.isPrefixOf_iff_prefix]
    have hne : (("10." ++ r).data.isEmpty) = false := by
      simp [String.data_append]
    simp [create_doi_url, hpre, hne]
  · intro d h
    by_cases hd : d = ""
    · subst hd; decide
    · cases hp : ("10.".data.isPrefixOf d.data) with
      | false => simp [create_doi_url, hp]
      | true =>
        exfalso
        have hpre : "10.".data <+: d.data := List.isPrefixOf_iff_prefix.mp hp
        obtain ⟨t, ht⟩ := hpre
        exact h ⟨hd, String.mk t, by cases d with
          | mk l => simp only [String.data_append] at ht ⊢
                    exact congrArg String.mk ht.symm⟩

/-- Witness for C10 at a concrete prefixed DOI. -/
theorem c10_create_doi_url_spec_witness :
    create_doi_url "10.7/ab" = "https://doi.org/" ++ "10.7/ab" :=
  c10_create_doi_url_spec.1 "10.7/ab" ⟨by decide, "7/ab", by decide⟩

/-! ## Claim C1: the worked extraction scenario -/

/-- Claim C1 counterexample: on the spec's input the extractor does not return
the record claimed (the venue differs: the code trims whitespace before it
strips periods, so the space exposed by the leading period remains). -/
theorem c1_counterexample :
    extract_publications "2020 - Smith, J. \"A Study of Graphs\". Journal of Math." ≠
      [{ Year := "2020", Authors := "Smith, J", Title := "A Study of Graphs",
         Venue := "Journal of Math" }] := by decide

/-- Claim C1 as amended: the single record returned has venue
" Journal of Math", with the leading space kept, because entry text after the
title is whitespace-trimmed first and period-stripped second. -/
theorem c1_extract_example :
    extract_publications "2020 - Smith, J. \"A Study of Graphs\". Journal of Math." =
      [{ Year := "2020", Authors := "Smith, J", Title := "A Study of Graphs",
         Venue := " Journal of Math" }] := by decide

/-! ## Claim C2: the comparison normalization, counterexample part -/

/-- Claim C2 counterexample: clean_text_for_comparison does not REMOVE
characters outside word/whitespace/hyphen — it replaces them by spaces, so
"a.b" becomes "a b", not "ab" as removal (removeNonWordClean) would give. -/
theorem c2_counterexample :
    clean_text_for_comparison "a.b" = "a b" ∧ removeNonWordClean "a.b" = "ab" ∧
      clean_text_for_comparison "a.b" ≠ removeNonWordClean "a.b" := by decide

/-! ## Claim C3: counterexample part -/

/-- Claim C3 counterexample: a chunk whose quoted title is all whitespace
produces a record whose Title field is the empty string. -/
theorem c3_counterexample :
    extract_publications "2020 - X. \" \". V" =
      [{ Year := "2020", Authors := "X", Title := "", Venue := " V" }] ∧
      ({ Year := "2020", Authors := "X", Title := "", Venue := " V" } : Pub).Title = "" := by
  decide

/-! ## Claim C4: counterexample part -/

/-- Claim C4 counterexample: a single valid entry (leading year-hyphen marker,
quoted title) whose title contains another year-hyphen marker is split in two
by the extractor and yields zero records instead of one. -/
theorem c4_counterexample :
    validEntry ("2020 - A. \"War of 1999 - 2000\". V".data) = true ∧
      extract_publications "2020 - A. \"War of 1999 - 2000\". V" = [] := by decide

/-! ## Claim C6: counterexample part -/

unseal Rat.mul Rat.inv Rat.add Rat.sub Rat.ofScientific in
/-- Claim C6 counterexample: a candidate with a published-print field that has
no date-parts carries no structured year, yet with a year hint it is rejected
(its extracted year reads ""), so the lookup returns "" although the candidate
has similarity 1 and a DOI. -/
theorem c6_counterexample :
    hasStructYear ⟨some ["t"], some "10.1/x", some none⟩ = false ∧
      search_crossref_doi "t" "" "2020"
        (.resp 200 (.ok [⟨some ["t"], some "10.1/x", some none⟩])) = "" ∧
      search_crossref_doi "t" "" "2020"
        (.resp 200 (.ok [⟨some ["t"], some "10.1/x", none⟩])) = "10.1/x" := by decide

/-! ## Claim C8: counterexample part -/

unseal Rat.mul Rat.inv Rat.add Rat.sub Rat.ofScientific in
/-- Claim C8 counterexample: the sequence-matching ratio is not symmetric; on
the pair "ppeqqfz", "qqzpp" the two orders give 1/3 and 1/2. -/
theorem c8_counterexample :
    simScore "ppeqqfz" "qqzpp" ≠ simScore "qqzpp" "ppeqqfz" := by decide

/-! ## Claim C9: counterexample part -/

unseal Rat.mul Rat.inv Rat.add Rat.sub Rat.ofScientific in
/-- Claim C9 counterexample: "ab" and "a.b" differ only in punctuation, but
their normalized forms "ab" and "a b" have similarity 4/5, not 1: punctuation
becomes a space, so punctuation inside a word changes the normalized text. -/
theorem c9_counterexample :
    differOnlyPunctCase "ab" "a.b" = true ∧
      simScore (clean_text_for_comparison "ab") (clean_text_for_comparison "a.b") ≠ 1 := by
  decide

/-! ## Claim C2: amended part — the pipeline equals the words view -/

/-- Char.ofNat returns its argument's code point for small valid values. -/
theorem char_toNat_ofNat (n : Nat) (h : n < 55296) : (Char.ofNat n).toNat = n := by
  have hv : n.isValidChar := Or.inl h
  rw [Char.ofNat, dif_pos hv]
  rfl

/-- ASCII lower-casing does not change whether a character is whitespace. -/
theorem isSpaceChar_toLower (c : Char) : isSpaceChar (Char.toLower c) = isSpaceChar c := by
  simp only [Char.toLower]
  split
  case isTrue h =>
    have h1 : (Char.ofNat (c.toNat + 32)).toNat = c.toNat + 32 :=
      char_toNat_ofNat _ (by omega)
    have hR : isSpaceChar c = false := by
      simp only [isSpaceChar, Bool.or_eq_false_iff, beq_eq_false_iff_ne, ne_eq]
      omega
    have hL : isSpaceChar (Char.ofNat (c.toNat + 32)) = false := by
      simp only [isSpaceChar, h1, Bool.or_eq_false_iff, beq_eq_false_iff_ne, ne_eq]
      omega
    rw [hL, hR]
  case isFalse h => rfl

/-- Lower-casing commutes with whitespace collapsing. -/
theorem pyLower_collapseWs : ∀ (l : List Char) (prev : Bool),
    pyLower (collapseWs prev l) = collapseWs prev (pyLower l) := by
  intro l
  induction l with
  | nil => intro prev; rfl
  | cons c cs ih =>
    intro prev
    have ih2 : ∀ pb, List.map Char.toLower (collapseWs pb cs) =
        collapseWs pb (List.map Char.toLower cs) := by
      intro pb
      simpa [pyLower] using ih pb
    by_cases hc : isSpaceChar c = true
    · have hc2 : isSpaceChar (Char.toLower c) = true := by rw [isSpaceChar_toLower]; exact hc
      cases prev with
      | true => simp [collapseWs, pyLower, hc, hc2, ih2]
      | false => simp [collapseWs, pyLower, hc, hc2, ih2]
    · have hc2 : ¬ isSpaceChar (Char.toLower c) = true := by rw [isSpaceChar_toLower]; exact hc
      simp [collapseWs, pyLower, hc, hc2, ih2]

/-- Collapsing in just-seen-whitespace state equals collapsing after dropping
the leading whitespace run. -/
theorem collapseWs_true_eq : ∀ l : List Char,
    collapseWs true l = collapseWs false (l.dropWhile isSpaceChar) := by
  intro l
  induction l with
  | nil => rfl
  | cons c cs ih =>
    by_cases hc : isSpaceChar c = true
    · rw [List.dropWhile_cons_of_pos hc]
      simp only [collapseWs, hc, if_true]
      exact ih
    · rw [List.dropWhile_cons_of_neg hc]
      simp only [collapseWs, hc]
      simp [hc]

/-- dropWhile is the identity when no element satisfies the predicate. -/
theorem dropWhile_of_all_false {p : Char → Bool} : ∀ {l : List Char},
    (∀ x ∈ l, p x = false) → l.dropWhile p = l := by
  intro l h
  induction l with
  | nil => rfl
  | cons c cs ih =>
    have hc : p c = false := h c (by simp)
    rw [List.dropWhile_cons_of_neg (by simp [hc])]

/-- Right strip passes over a whitespace-free prefix. -/
theorem rstripWs_append (w Z : List Char) (hw : ∀ x ∈ w, isSpaceChar x = false) :
    rstripWs (w ++ Z) = w ++ rstripWs Z := by
  unfold rstripWs
  rw [List.reverse_append, List.dropWhile_append]
  by_cases h : (Z.reverse.dropWhile isSpaceChar).isEmpty
  · rw [if_pos h]
    have hz : Z.reverse.dropWhile isSpaceChar = [] := by
      rwa [List.isEmpty_iff] at h
    rw [hz, dropWhile_of_all_false (fun x hx => hw x (by simpa using hx))]
    simp
  · rw [if_neg h]
    have hz : (Z.reverse.dropWhile isSpaceChar).reverse.reverse =
        Z.reverse.dropWhile isSpaceChar := by simp
    rw [List.reverse_append]
    simp

/-- Right strip enters a cons whose tail does not strip to nothing. -/
theorem rstripWs_cons_of_ne_nil (x : Char) (Z : List Char) (h : rstripWs Z ≠ []) :
    rstripWs (x :: Z) = x :: rstripWs Z := by
  unfold rstripWs at h ⊢
  have h2 : ¬ (Z.reverse.dropWhile isSpaceChar).isEmpty := by
    intro hc
    rw [List.isEmpty_iff] at hc
    rw [hc] at h
    simp at h
  rw [show (x :: Z).reverse = Z.reverse ++ [x] by simp]
  rw [List.dropWhile_append, if_neg h2]
  simp

/-- Collapsing passes over a whitespace-free prefix. -/
theorem collapseWs_nonspace_prefix : ∀ (w r : List Char),
    (∀ x ∈ w, isSpaceChar x = false) →
    collapseWs false (w ++ r) = w ++ collapseWs false r := by
  intro w
  induction w with
  | nil => intro r _; rfl
  | cons c cs ih =>
    intro r hw
    have hc : isSpaceChar c = false := hw c (by simp)
    simp only [List.cons_append, collapseWs, hc]
    simp only [Bool.false_eq_true, if_false, List.cons.injEq, true_and]
    exact ih r (fun x hx => hw x (by simp [hx]))

/-- Stripping a leading space. -/
theorem stripWs_cons_space (c : Char) (X : List Char) (hc : isSpaceChar c = true) :
    stripWs (c :: X) = stripWs X := by
  unfold stripWs
  rw [List.dropWhile_cons_of_pos hc]

/-- The strip-of-collapse does not see a leading whitespace run. -/
theorem stripWs_collapseWs_dropWhile : ∀ l : List Char,
    stripWs (collapseWs false (l.dropWhile isSpaceChar)) = stripWs (collapseWs false l) := by
  intro l
  cases l with
  | nil => rfl
  | cons c cs =>
    by_cases hc : isSpaceChar c = true
    · rw [List.dropWhile_cons_of_pos hc]
      have h1 : collapseWs false (c :: cs) = ' ' :: collapseWs true cs := by
        simp [collapseWs, hc]
      rw [h1, stripWs_cons_space ' ' _ (by decide), collapseWs_true_eq]
    · rw [List.dropWhile_cons_of_neg hc]

/-- Collapsing returns the empty list only on the empty list. -/
theorem collapseWs_eq_nil : ∀ z : List Char, collapseWs false z = [] ↔ z = [] := by
  intro z
  cases z with
  | nil => simp [collapseWs]
  | cons c cs =>
    constructor
    · intro h
      by_cases hc : isSpaceChar c = true <;> simp [collapseWs, hc] at h
    · intro h; cases h

/-- Words are unchanged by dropping leading whitespace. -/
theorem wordsOf_dropWhile : ∀ l : List Char,
    wordsOf (l.dropWhile isSpaceChar) = wordsOf l := by
  intro l
  induction l with
  | nil => rfl
  | cons c cs ih =>
    by_cases hc : isSpaceChar c = true
    · rw [List.dropWhile_cons_of_pos hc]
      rw [ih]
      simp [wordsOf, hc]
    · rw [List.dropWhile_cons_of_neg hc]

/-- The head left by dropWhile fails the predicate. -/
theorem dropWhile_head_false {p : Char → Bool} : ∀ {l : List Char} {d : Char} {rs : List Char},
    l.dropWhile p = d :: rs → p d = false := by
  intro l
  induction l with
  | nil => intro d rs h; cases h
  | cons c cs ih =>
    intro d rs h
    by_cases hc : p c = true
    · rw [List.dropWhile_cons_of_pos hc] at h
      exact ih h
    · rw [List.dropWhile_cons_of_neg hc] at h
      cases h
      simpa using hc

/-- Collapsed whitespace then strip equals the words joined by single spaces. -/
theorem stripWs_collapseWs_eq_joinSp_wordsOf : ∀ l : List Char,
    stripWs (collapseWs false l) = joinSp (wordsOf l) := by
  intro l
  induction l using wordsOf.induct with
  | case1 => simp [stripWs, rstripWs, collapseWs, wordsOf, joinSp]
  | case2 c cs hc ih =>
    have h1 : collapseWs false (c :: cs) = ' ' :: collapseWs true cs := by
      simp [collapseWs, hc]
    rw [h1, stripWs_cons_space ' ' _ (by decide), collapseWs_true_eq,
      stripWs_collapseWs_dropWhile, ih]
    simp [wordsOf, hc]
  | case3 c cs hc ih =>
    have hcf : isSpaceChar c = false := by simpa using hc
    have hwns : ∀ x ∈ c :: cs.takeWhile (fun d => !(isSpaceChar d)), isSpaceChar x = false := by
      intro x hx
      rcases List.mem_cons.mp hx with h | h
      · rw [h]; exact hcf
      · have h2 := List.mem_takeWhile_imp h
        simpa using h2
    have hsplit : c :: cs =
        (c :: cs.takeWhile (fun d => !(isSpaceChar d))) ++
          cs.dropWhile (fun d => !(isSpaceChar d)) := by
      rw [List.cons_append, List.takeWhile_append_dropWhile]
    have h1 : collapseWs false (c :: cs) =
        (c :: cs.takeWhile (fun d => !(isSpaceChar d))) ++
          collapseWs false (cs.dropWhile (fun d => !(isSpaceChar d))) := by
      conv_lhs => rw [hsplit]
      exact collapseWs_nonspace_prefix _ _ hwns
    have hwords : wordsOf (c :: cs) =
        (c :: cs.takeWhile (fun d => !(isSpaceChar d))) ::
          wordsOf (cs.dropWhile (fun d => !(isSpaceChar d))) := by
      simp [wordsOf, hc]
    rw [h1, hwords]
    have hstrip : ∀ X : List Char,
        stripWs ((c :: cs.takeWhile (fun d => !(isSpaceChar d))) ++ X) =
          rstripWs ((c :: cs.takeWhile (fun d => !(isSpaceChar d))) ++ X) := by
      intro X
      unfold stripWs
      rw [List.cons_append, List.dropWhile_cons_of_neg (by simp [hcf])]
    rw [hstrip, rstripWs_append _ _ hwns]
    cases hr : cs.dropWhile (fun d => !(isSpaceChar d)) with
    | nil =>
      simp [collapseWs, rstripWs, joinSp, wordsOf]
    | cons d rs =>
      have hd : isSpaceChar d = true := by
        have h2 := dropWhile_head_false hr
        simpa using h2
      have h2 : collapseWs false (d :: rs) = ' ' :: collapseWs true rs := by
        simp [collapseWs, hd]
      rw [h2, collapseWs_true_eq]
      rw [hr] at ih
      cases hz : rs.dropWhile isSpaceChar with
      | nil =>
        have hwd2 : wordsOf (d :: rs) = [] := by
          have h4 : wordsOf (d :: rs) = wordsOf rs := by simp [wordsOf, hd]
          rw [h4, ← wordsOf_dropWhile rs, hz]
          simp [wordsOf]
        rw [hwd2]
        simp [collapseWs, rstripWs, joinSp, show isSpaceChar ' ' = true from by decide]
      | cons z0 z2 =>
        have hz0 : isSpaceChar z0 = false := dropWhile_head_false hz
        have hwd2 : wordsOf (d :: rs) = wordsOf (z0 :: z2) := by
          have h4 : wordsOf (d :: rs) = wordsOf rs := by simp [wordsOf, hd]
          rw [h4, ← wordsOf_dropWhile rs, hz]
        have h3 : collapseWs false (z0 :: z2) = z0 :: collapseWs false z2 := by
          simp [collapseWs, hz0]
        have hYne : rstripWs (collapseWs false (z0 :: z2)) ≠ [] := by
          rw [h3, show z0 :: collapseWs false z2 = [z0] ++ collapseWs false z2 by simp,
            rstripWs_append [z0] _ (by simpa using hz0)]
          simp
        rw [rstripWs_cons_of_ne_nil _ _ hYne]
        have hstripY : stripWs (collapseWs false (z0 :: z2)) =
            rstripWs (collapseWs false (z0 :: z2)) := by
          rw [h3]
          unfold stripWs
          rw [List.dropWhile_cons_of_neg (by simp [hz0])]
        have hihY : rstripWs (collapseWs false (z0 :: z2)) = joinSp (wordsOf (z0 :: z2)) := by
          rw [← hstripY]
          have hL : stripWs (collapseWs false (d :: rs)) =
              stripWs (collapseWs false (z0 :: z2)) := by
            rw [h2, stripWs_cons_space ' ' _ (by decide), collapseWs_true_eq, hz]
          rw [← hL, ih, hwd2]
        rw [hihY, hwd2]
        have hwz : wordsOf (z0 :: z2) =
            (z0 :: z2.takeWhile (fun d => !(isSpaceChar d))) ::
              wordsOf (z2.dropWhile (fun d => !(isSpaceChar d))) := by
          simp [wordsOf, hz0]
        rw [hwz]
        simp [joinSp]

/-- Claim C2 as amended: for every input, clean_text_for_comparison replaces
each character outside word/whitespace/hyphen by a space, collapses whitespace
runs to a single space, lower-cases and trims — equivalently, it returns the
lower-cased maximal non-whitespace words joined by single spaces. -/
theorem c2_amended_clean_eq_words : ∀ s : String,
    clean_text_for_comparison s = amendedClean s := by
  intro s
  unfold clean_text_for_comparison amendedClean
  rw [pyLower_collapseWs, stripWs_collapseWs_eq_joinSp_wordsOf]

/-! ## Claim C3: amended part -/

/-- A successful quotedHere match exposes its shape: the input starts with a
quote, the nonempty quote-free group, and a closing quote. -/
theorem quotedHere_shape : ∀ {cs grp : List Char}, quotedHere cs = some grp →
    grp ≠ [] ∧ (∀ c ∈ grp, c ≠ '"') ∧ ∃ tail, cs = '"' :: (grp ++ '"' :: tail) := by
  intro cs grp h
  have hmem : ∀ {rest : List Char} (x : Char),
      x ∈ rest.takeWhile (fun c => !(c == '"')) → x ≠ '"' := by
    intro rest x hx
    have h2 := List.mem_takeWhile_imp hx
    simpa using h2
  unfold quotedHere at h
  dsimp only at h
  split at h
  · rename_i rest
    by_cases hlen : ((rest.takeWhile (fun c => !(c == '"'))).length == 0) = true
    · rw [if_pos hlen] at h
      cases h
    · rw [if_neg hlen] at h
      split at h
      · rename_i tail heq
        cases h
        have happ : rest.takeWhile (fun c => !(c == '"')) ++
            rest.dropWhile (fun c => !(c == '"')) = rest :=
          List.takeWhile_append_dropWhile _ _
        have hdrop : rest.drop (rest.takeWhile (fun c => !(c == '"'))).length =
            rest.dropWhile (fun c => !(c == '"')) := by
          nth_rewrite 2 [← happ]
          rw [List.drop_left]
        rw [hdrop] at heq
        refine ⟨?_, fun x hx => hmem x hx, tail, ?_⟩
        · intro hnil
          rw [hnil] at hlen
          simp at hlen
        · rw [← heq, happ]
      · cases h
  · cases h

/-- Any group found by the title scan is a nonempty quote-free run that occurs
double-quoted inside the scanned text. -/
theorem titleHuntAux_shape : ∀ (cs : List Char) (pos p : Nat) (grp : List Char),
    titleHuntAux cs pos = some (p, grp) →
    grp ≠ [] ∧ (∀ c ∈ grp, c ≠ '"') ∧
      ∃ pre tail, cs = pre ++ '"' :: (grp ++ '"' :: tail) := by
  intro cs
  induction cs with
  | nil => intro pos p grp h; cases h
  | cons c rest ih =>
    intro pos p grp h
    rw [titleHuntAux] at h
    cases hq : quotedHere (c :: rest) with
    | some g =>
      rw [hq] at h
      cases h
      obtain ⟨hne, hnq, tail, hsh⟩ := quotedHere_shape hq
      exact ⟨hne, hnq, [], tail, by rw [hsh]; rfl⟩
    | none =>
      rw [hq] at h
      obtain ⟨hne, hnq, pre, tail, hsh⟩ := ih _ _ _ h
      refine ⟨hne, hnq, c :: pre, tail, ?_⟩
      rw [List.cons_append, hsh]

/-- Claim C3 as amended: a chunk from which no title can be parsed (no
double-quoted nonempty substring in its stripped text) is discarded —
parseEntry returns none on it — and every emitted record comes from a chunk
of the split that parses to it and whose stripped text literally contains a
double-quoted nonempty run of non-quote characters whose whitespace-trimmed
content is the record's title.  The title itself can still be the empty
string, when the quoted content is entirely whitespace. -/
theorem c3_amended_title_from_quoted (text : String) :
    (∀ chunk : List Char, titleHunt (stripWs chunk) = none → parseEntry chunk = none) ∧
    (∀ r ∈ extract_publications text, ∃ chunk ∈ reSplitMarker text.data,
      parseEntry chunk = some r ∧ ∃ raw pre tail : List Char,
        stripWs chunk = pre ++ '"' :: (raw ++ '"' :: tail) ∧
        raw ≠ [] ∧ (∀ c ∈ raw, c ≠ '"') ∧ r.Title = String.mk (stripWs raw)) := by
  constructor
  · intro chunk hth
    unfold parseEntry
    dsimp only
    by_cases hie : (stripWs chunk).isEmpty = true
    · rw [if_pos hie]
    · rw [if_neg hie]
      cases hpm : parseMarker (stripWs chunk) with
      | none => rfl
      | some ym =>
        obtain ⟨year, yEnd⟩ := ym
        rw [hth]
  · intro r hr
    unfold extract_publications extractPubsL at hr
    rw [List.mem_filterMap] at hr
    obtain ⟨chunk, hcmem, hp⟩ := hr
    refine ⟨chunk, hcmem, hp, ?_⟩
    have hp2 := hp
    unfold parseEntry at hp2
    dsimp only at hp2
    by_cases hie : (stripWs chunk).isEmpty = true
    · rw [if_pos hie] at hp2
      cases hp2
    · rw [if_neg hie] at hp2
      cases hpm : parseMarker (stripWs chunk) with
      | none =>
        rw [hpm] at hp2
        cases hp2
      | some ym =>
        rw [hpm] at hp2
        obtain ⟨year, yEnd⟩ := ym
        cases hth : titleHunt (stripWs chunk) with
        | none =>
          rw [hth] at hp2
          cases hp2
        | some tm =>
          obtain ⟨tStart, grp, tEnd⟩ := tm
          rw [hth] at hp2
          dsimp only at hp2
          cases hp2
          have hgrp : grp ≠ [] ∧ (∀ c ∈ grp, c ≠ '"') ∧
              ∃ pre tail, stripWs chunk = pre ++ '"' :: (grp ++ '"' :: tail) := by
            unfold titleHunt at hth
            cases hx : titleHuntAux (stripWs chunk) 0 with
            | none => rw [hx] at hth; cases hth
            | some pg =>
              rw [hx] at hth
              dsimp only [Option.map] at hth
              obtain ⟨p2, g2⟩ := pg
              cases hth
              exact titleHuntAux_shape _ _ _ _ hx
          obtain ⟨hne, hnq, pre, tail, hsh⟩ := hgrp
          exact ⟨grp, pre, tail, hsh, hne, hnq, rfl⟩

/-- Witness for the amended C3 on the spec's own scenario input: the record's
chunk and the quoted occurrence of its title are produced concretely. -/
theorem c3_amended_witness :
    ∃ chunk ∈ reSplitMarker ("2020 - Smith, J. \"A Study of Graphs\". Journal of Math.".data),
      parseEntry chunk =
        some (⟨"2020", "Smith, J", "A Study of Graphs", " Journal of Math"⟩ : Pub) ∧
      ∃ raw pre tail : List Char,
        stripWs chunk = pre ++ '"' :: (raw ++ '"' :: tail) ∧
        raw ≠ [] ∧ (∀ c ∈ raw, c ≠ '"') ∧
        (⟨"2020", "Smith, J", "A Study of Graphs", " Journal of Math"⟩ : Pub).Title =
          String.mk (stripWs raw) :=
  (c3_amended_title_from_quoted
    "2020 - Smith, J. \"A Study of Graphs\". Journal of Math.").2 _ (by decide)

/-! ## Claim C4: amended part -/

/-- Cutting the concatenation of entries at their start offsets recovers the
entries. -/
theorem piecesFrom_join : ∀ (es : List (List Char)) (C e : List Char),
    piecesFrom (C ++ (e ++ es.join)) C.length (entryStarts (C.length + e.length) es) =
      e :: es := by
  intro es
  induction es with
  | nil =>
    intro C e
    simp [entryStarts, piecesFrom, List.drop_left]
  | cons e2 es2 ih =>
    intro C e
    have h1 : entryStarts (C.length + e.length) (e2 :: es2) =
        (C.length + e.length) :: entryStarts (C.length + e.length + e2.length) es2 := by
      simp [entryStarts]
    rw [h1]
    have h2 : sliceL (C ++ (e ++ (e2 :: es2).join)) C.length (C.length + e.length) = e := by
      unfold sliceL
      rw [List.drop_left, Nat.add_sub_cancel_left]
      rw [show e ++ (e2 :: es2).join = e ++ (e2 ++ es2.join) by simp, List.take_left]
    have h3 := ih (C ++ e) e2
    rw [List.append_assoc, List.length_append] at h3
    have h4 : C ++ (e ++ (e2 :: es2).join) = C ++ (e ++ (e2 ++ es2.join)) := by simp
    rw [h4] at h2
    simp only [piecesFrom, h4]
    rw [h2, h3]

/-- A valid entry always parses to a record. -/
theorem parseEntry_isSome_of_valid : ∀ {e : List Char}, validEntry e = true →
    (parseEntry e).isSome = true := by
  intro e h
  unfold validEntry at h
  rw [Bool.and_eq_true] at h
  obtain ⟨h1, h2⟩ := h
  unfold parseEntry
  dsimp only
  have hne : (stripWs e).isEmpty = false := by
    cases hse : stripWs e with
    | nil => rw [hse] at h1; simp [parseMarker] at h1
    | cons x xs => simp
  rw [hne]
  simp only [Bool.false_eq_true, if_false]
  cases hm : parseMarker (stripWs e) with
  | none => rw [hm] at h1; cases h1
  | some ym =>
    obtain ⟨year, yEnd⟩ := ym
    cases ht : titleHunt (stripWs e) with
    | none => rw [ht] at h2; cases h2
    | some tm =>
      obtain ⟨tStart, grp, tEnd⟩ := tm
      simp

/-- filterMap over entries that all parse keeps the length. -/
theorem filterMap_parseEntry_length : ∀ (es : List (List Char)),
    (∀ e ∈ es, validEntry e = true) → (es.filterMap parseEntry).length = es.length := by
  intro es h
  induction es with
  | nil => rfl
  | cons e es2 ih =>
    have h1 := parseEntry_isSome_of_valid (h e (by simp))
    cases hs : parseEntry e with
    | none => rw [hs] at h1; cases h1
    | some p =>
      simp only [List.filterMap_cons, hs, List.length_cons]
      rw [ih (fun x hx => h x (by simp [hx]))]

/-- Claim C4 as amended: for well-formed input text that is the concatenation
of N valid entries (leading 4-digit-year-hyphen marker, double-quoted title),
provided the year-hyphen marker pattern occurs in the text only at the entry
start positions, the extractor returns exactly N records, one per entry, in
source order. -/
theorem c4_amended_extract_all (entries : List (List Char))
    (hval : ∀ e ∈ entries, validEntry e = true)
    (hcut : cutPositions entries.join = entryStarts 0 entries) :
    extractPubsL entries.join = entries.filterMap parseEntry ∧
      (entries.filterMap parseEntry).length = entries.length := by
  refine ⟨?_, filterMap_parseEntry_length entries hval⟩
  unfold extractPubsL reSplitMarker
  rw [hcut]
  cases entries with
  | nil =>
    simp [entryStarts, piecesFrom, parseEntry, stripWs, rstripWs]
  | cons e es =>
    have h0 : entryStarts 0 (e :: es) = 0 :: entryStarts (0 + e.length) es := by
      simp [entryStarts]
    rw [h0]
    have h1 : piecesFrom (e :: es).join 0 (0 :: entryStarts (0 + e.length) es) =
        sliceL (e :: es).join 0 0 ::
          piecesFrom (e :: es).join 0 (entryStarts (0 + e.length) es) := by
      simp [piecesFrom]
    rw [h1]
    have h2 := piecesFrom_join es [] e
    simp only [List.nil_append, List.length_nil, Nat.zero_add] at h2
    have h3 : (e :: es).join = e ++ es.join := by simp
    have h4 : piecesFrom (e :: es).join 0 (entryStarts (0 + e.length) es) = e :: es := by
      rw [h3, Nat.zero_add]
      exact h2
    rw [h4]
    have h5 : sliceL (e :: es).join 0 0 = [] := by simp [sliceL]
    rw [h5]
    simp [List.filterMap_cons, show parseEntry [] = none from rfl]

/-- Witness for the amended C4 on two concrete entries. -/
theorem c4_amended_witness :
    extractPubsL (["2020 - A. \"T\". V. ".data, "2021 - B. \"U\". W.".data] :
        List (List Char)).join =
      (["2020 - A. \"T\". V. ".data, "2021 - B. \"U\". W.".data] :
        List (List Char)).filterMap parseEntry ∧
      ((["2020 - A. \"T\". V. ".data, "2021 - B. \"U\". W.".data] :
        List (List Char)).filterMap parseEntry).length =
        (["2020 - A. \"T\". V. ".data, "2021 - B. \"U\". W.".data] :
          List (List Char)).length :=
  c4_amended_extract_all _ (by decide) (by decide)

/-! ## Claim C5: the candidate loop -/

/-- On responses without degenerate date-parts the candidate loop returns the
DOI (or "" when the field is absent) of the first accepted candidate, "" when
none is accepted. -/
theorem searchLoop_eq_find (inputClean year : String) : ∀ items : List CRWork,
    (∀ w ∈ items, wellFormedPP w = true) →
    searchLoop inputClean year items =
      .ok (((items.find? (acceptsCandidate inputClean year)).map
        (fun w => w.DOI.getD "")).getD "") := by
  intro items
  induction items with
  | nil => intro h; rfl
  | cons w ws ih =>
    intro h
    have hws := ih (fun x hx => h x (by simp [hx]))
    have hw : wellFormedPP w = true := h w (by simp)
    rw [searchLoop]
    cases htl : w.title with
    | none =>
      have ha : acceptsCandidate inputClean year w = false := by
        unfold acceptsCandidate
        rw [htl]
      dsimp only
      rw [hws, List.find?_cons_of_neg _ (by simp [ha])]
    | some ts =>
      cases ts with
      | nil =>
        have ha : acceptsCandidate inputClean year w = false := by
          unfold acceptsCandidate
          rw [htl]
        dsimp only
        rw [hws, List.find?_cons_of_neg _ (by simp [ha])]
      | cons t ts2 =>
        dsimp only
        by_cases hsim :
            (17 : ℚ) / 20 < simScore (clean_text_for_comparison t) inputClean
        · rw [if_pos hsim]
          cases hpp : w.publishedPrint with
          | none =>
            dsimp only
            have ha : acceptsCandidate inputClean year w = true := by
              unfold acceptsCandidate
              rw [htl, hpp]
              simp [hsim]
            rw [List.find?_cons_of_pos _ ha]
            rfl
          | some dp =>
            dsimp only
            by_cases hy : (year == "") = true
            · rw [if_pos hy]
              have ha : acceptsCandidate inputClean year w = true := by
                unfold acceptsCandidate
                rw [htl]
                simp [hsim, hy]
              rw [List.find?_cons_of_pos _ ha]
              rfl
            · rw [if_neg hy]
              have hpy : pubYearE dp = .ok (pubYearD dp) := by
                unfold wellFormedPP at hw
                rw [hpp] at hw
                cases dp with
                | none => rfl
                | some ll =>
                  cases ll with
                  | nil => simp at hw
                  | cons l0 ls =>
                    cases l0 with
                    | nil => simp at hw
                    | cons y ys => rfl
              rw [hpy]
              dsimp only
              by_cases hpyy : (pubYearD dp == year) = true
              · rw [if_pos hpyy]
                have ha : acceptsCandidate inputClean year w = true := by
                  unfold acceptsCandidate
                  rw [htl, hpp]
                  simp [hsim]
                  right
                  simpa using hpyy
                rw [List.find?_cons_of_pos _ ha]
                rfl
              · rw [if_neg hpyy]
                have ha : acceptsCandidate inputClean year w = false := by
                  unfold acceptsCandidate
                  rw [htl, hpp]
                  simp [hsim]
                  constructor
                  · intro hyy
                    exact absurd (by simp [hyy]) hy
                  · intro hyy
                    exact absurd (by simp [hyy]) hpyy
                rw [hws, List.find?_cons_of_neg _ (by simp [ha])]
        · rw [if_neg hsim]
          have ha : acceptsCandidate inputClean year w = false := by
            unfold acceptsCandidate
            rw [htl]
            simp [hsim]
          rw [hws, List.find?_cons_of_neg _ (by simp [ha])]

/-- Claim C5: on a parsed 200 response whose candidates have no degenerate
date-parts, the resolver walks the candidates in registry order, rejects every
candidate with similarity at most 0.85 (as part of the acceptance predicate),
and returns the DOI of the first accepted candidate — the empty string when
that candidate has no DOI field, or when no candidate is accepted. -/
theorem c5_resolver_first_accepted (title authors year : String) (items : List CRWork)
    (hwf : ∀ w ∈ items, wellFormedPP w = true) :
    search_crossref_doi title authors year (.resp 200 (.ok items)) =
      ((items.find? (acceptsCandidate (inputTitleClean title) year)).map
        (fun w => w.DOI.getD "")).getD "" := by
  unfold search_crossref_doi inputTitleClean
  dsimp only
  cases items with
  | nil => rfl
  | cons w ws =>
    rw [searchLoop_eq_find _ _ _ hwf]
    simp

unseal Rat.mul Rat.inv Rat.add Rat.sub Rat.ofScientific in
/-- Witness for C5: a single high-similarity candidate with a DOI and no
published-print field is accepted and its DOI returned. -/
theorem c5_resolver_first_accepted_witness :
    search_crossref_doi "t" "" "" (.resp 200 (.ok [⟨some ["t"], some "10.1/x", none⟩])) =
      "10.1/x" := by
  have h := c5_resolver_first_accepted "t" "" ""
    [⟨some ["t"], some "10.1/x", none⟩] (by decide)
  rw [h]
  decide

/-! ## Claim C6: amended part -/

/-- Claim C6 as amended: with a year hint, a high-similarity candidate that
carries no published-print field at all passes the year filter
unconditionally; a candidate that carries published-print is kept or skipped
according to the extracted year string (which is "" when date-parts is
absent), so a differing extracted year — including the empty one — moves the
loop to the next candidate. -/
theorem c6_year_filter (inputClean year : String) (w : CRWork) (ws : List CRWork)
    (t : String) (ts2 : List String) (hy : year ≠ "") (ht : w.title = some (t :: ts2))
    (hsim : (17 : ℚ) / 20 < simScore (clean_text_for_comparison t) inputClean) :
    (w.publishedPrint = none →
      searchLoop inputClean year (w :: ws) = .ok (w.DOI.getD "")) ∧
    (∀ dp y, w.publishedPrint = some dp → pubYearE dp = .ok y →
      (y ≠ year → searchLoop inputClean year (w :: ws) = searchLoop inputClean year ws) ∧
      (y = year → searchLoop inputClean year (w :: ws) = .ok (w.DOI.getD ""))) := by
  have hyneg : ¬ ((year == "") = true) := by simpa using hy
  constructor
  · intro hpp
    rw [searchLoop, ht]
    dsimp only
    rw [if_pos hsim, hpp]
  · intro dp y hpp hpy
    constructor
    · intro hne
      rw [searchLoop, ht]
      dsimp only
      rw [if_pos hsim, hpp]
      dsimp only
      rw [if_neg hyneg, hpy]
      dsimp only
      rw [if_neg (show ¬ ((y == year) = true) by simpa using hne)]
    · intro heq
      rw [searchLoop, ht]
      dsimp only
      rw [if_pos hsim, hpp]
      dsimp only
      rw [if_neg hyneg, hpy]
      dsimp only
      rw [if_pos (show (y == year) = true by simpa using heq)]

unseal Rat.mul Rat.inv Rat.add Rat.sub Rat.ofScientific in
/-- Witness for the amended C6: a wrong structured year skips the candidate. -/
theorem c6_year_filter_witness :
    searchLoop "t" "2020" [⟨some ["t"], some "10.1/x", some (some [["2019"]])⟩] =
      searchLoop "t" "2020" [] :=
  (((c6_year_filter "t" "2020" ⟨some ["t"], some "10.1/x", some (some [["2019"]])⟩ []
    "t" [] (by decide) rfl (by decide)).2 (some [["2019"]]) "2019" rfl rfl).1 (by decide))

/-! ## Claim C7: the resolver never throws -/

/-- Claim C7: the resolver is a total function of the request outcome; a
network-level exception, a non-success status, a malformed body, and a
response on which the candidate loop raises all yield the empty string. -/
theorem c7_resolver_never_throws (title authors year : String) :
    search_crossref_doi title authors year .exn = "" ∧
    (∀ (status : Nat) (body : Except Unit (List CRWork)), status ≠ 200 →
      search_crossref_doi title authors year (.resp status body) = "") ∧
    (∀ status : Nat,
      search_crossref_doi title authors year (.resp status (.error ())) = "") ∧
    (∀ items : List CRWork, searchLoop (inputTitleClean title) year items = .error () →
      search_crossref_doi title authors year (.resp 200 (.ok items)) = "") := by
  refine ⟨rfl, ?_, ?_, ?_⟩
  · intro status body hs
    unfold search_crossref_doi
    dsimp only
    rw [if_neg (show ¬ ((status == 200) = true) by simpa using hs)]
  · intro status
    unfold search_crossref_doi
    dsimp only
    by_cases hs : (status == 200) = true
    · rw [if_pos hs]
    · rw [if_neg hs]
  · intro items hloop
    unfold search_crossref_doi
    dsimp only
    unfold inputTitleClean at hloop
    cases items with
    | nil => rfl
    | cons w ws =>
      rw [if_pos (show ((200 : Nat) == 200) = true from rfl)]
      rw [if_neg (show ¬ (((w :: ws).isEmpty) = true) by simp)]
      rw [hloop]

/-- Witness for C7 on a network failure and a 404 status. -/
theorem c7_resolver_never_throws_witness :
    search_crossref_doi "t" "" "" .exn = "" ∧
      search_crossref_doi "t" "" "" (.resp 404 (.ok [])) = "" :=
  ⟨(c7_resolver_never_throws "t" "" "").1,
    (c7_resolver_never_throws "t" "" "").2.1 404 (.ok []) (by decide)⟩

/-! ## Claims C8 and C9, amended parts: the self-comparison ratio is 1 -/

/-- Row eligibility forces the column to be a usable diagonal position. -/
theorem okD_of_eligRow {a : List Char} {i j : Nat} (he : eligRowD a i j = true) :
    okD a j = true := by
  unfold eligRowD eligJ at he
  unfold okD
  simp only [Bool.and_eq_true, beq_iff_eq] at he
  obtain ⟨⟨⟨⟨-, h2⟩, h3⟩, h4⟩, h5⟩ := he
  rw [← h4] at h5
  rw [h3, h5]
  rfl

/-- Row eligibility forces the row position to be usable, once in range. -/
theorem okD_row_of_eligRow {a : List Char} {i j : Nat} (hi : i < a.length)
    (he : eligRowD a i j = true) : okD a i = true := by
  unfold eligRowD eligJ at he
  unfold okD
  simp only [Bool.and_eq_true] at he
  have h5 := he.2
  simp only [h5, Bool.and_true]
  simpa using hi

/-- A DP run value is bounded by the diagonal run at its column. -/
theorem rLen_le_dsr (a : List Char) : ∀ i j, rLen a (i + 1) j ≤ dsr a j := by
  intro i
  induction i with
  | zero =>
    intro j
    rw [rLen]
    by_cases he : eligRowD a 0 j = true
    · rw [if_pos he]
      have hok := okD_of_eligRow he
      cases j with
      | zero => simp [rLen, dsr, hok]
      | succ j2 =>
        rw [dsr, if_pos hok]
        have h0 : rLen a 0 j2 = 0 := by rw [rLen]
        have h2 : ((j2 + 1 : Nat) == 0) = false := by simp
        rw [h2]
        simp only [Bool.false_eq_true, if_false, Nat.add_sub_cancel, h0, rLen]
        omega
    · rw [if_neg he]
      exact Nat.zero_le _
  | succ i2 ih =>
    intro j
    rw [rLen]
    by_cases he : eligRowD a (i2 + 1) j = true
    · rw [if_pos he]
      have hok := okD_of_eligRow he
      cases j with
      | zero => simp [dsr, hok]
      | succ j2 =>
        rw [dsr, if_pos hok]
        have h2 : ((j2 + 1 : Nat) == 0) = false := by simp
        rw [h2]
        simp only [Bool.false_eq_true, if_false, Nat.add_sub_cancel]
        have h1 := ih j2
        omega
    · rw [if_neg he]
      exact Nat.zero_le _

/-- A DP run value at row i is bounded by the diagonal run ending at i. -/
theorem rLen_le_dsr_row (a : List Char) : ∀ i j, i < a.length →
    rLen a (i + 1) j ≤ dsr a i := by
  intro i
  induction i with
  | zero =>
    intro j hi
    rw [rLen]
    by_cases he : eligRowD a 0 j = true
    · rw [if_pos he]
      have hok := okD_row_of_eligRow hi he
      have h0 : (if (j == 0) = true then 0 else rLen a 0 (j - 1)) = 0 := by
        split
        · rfl
        · rw [rLen]
      rw [h0, dsr, if_pos hok]
    · rw [if_neg he]
      exact Nat.zero_le _
  | succ i2 ih =>
    intro j hi
    rw [rLen]
    by_cases he : eligRowD a (i2 + 1) j = true
    · rw [if_pos he]
      have hok := okD_row_of_eligRow hi he
      rw [dsr, if_pos hok]
      cases j with
      | zero =>
        rw [show ((0 : Nat) == 0) = true from rfl]
        simp only [if_true]
        omega
      | succ j2 =>
        have h2 : ((j2 + 1 : Nat) == 0) = false := by simp
        rw [h2]
        simp only [Bool.false_eq_true, if_false, Nat.add_sub_cancel]
        have h1 := ih j2 (by omega)
        omega
    · rw [if_neg he]
      exact Nat.zero_le _

/-- On the diagonal the DP run value equals the diagonal run. -/
theorem rLen_diag (a : List Char) : ∀ i, rLen a (i + 1) i = dsr a i := by
  intro i
  induction i with
  | zero =>
    rw [rLen]
    have he : eligRowD a 0 0 = okD a 0 := by
      unfold eligRowD eligJ okD
      by_cases h : (0 < a.length)
      · simp [h]
      · simp [h]
    rw [he, dsr]
    by_cases hok : okD a 0 = true
    · rw [if_pos hok, if_pos hok]
      rfl
    · rw [if_neg hok, if_neg hok]
  | succ i2 ih =>
    rw [rLen]
    have he : eligRowD a (i2 + 1) (i2 + 1) = okD a (i2 + 1) := by
      unfold eligRowD eligJ okD
      by_cases h : (i2 + 1 < a.length)
      · simp [h]
      · simp [h]
    rw [he, dsr]
    by_cases hok : okD a (i2 + 1) = true
    · rw [if_pos hok, if_pos hok]
      have h2 : ((i2 + 1 : Nat) == 0) = false := by simp
      rw [h2]
      simp only [Bool.false_eq_true, if_false, Nat.add_sub_cancel]
      rw [ih]
    · rw [if_neg hok, if_neg hok]

/-- Diagonal runs are bounded by the position. -/
theorem dsr_le_succ (a : List Char) : ∀ j, dsr a j ≤ j + 1 := by
  intro j
  induction j with
  | zero =>
    rw [dsr]
    split
    · exact Nat.le_refl _
    · exact Nat.zero_le _
  | succ j2 ih =>
    rw [dsr]
    split
    · omega
    · exact Nat.zero_le _

/-- Earlier diagonal runs are bounded by the running maximum. -/
theorem dsr_le_maxDsr (a : List Char) : ∀ i j, j < i → dsr a j ≤ maxDsr a i := by
  intro i
  induction i with
  | zero => intro j h; omega
  | succ i2 ih =>
    intro j h
    rw [maxDsr]
    by_cases hj : j < i2
    · exact Nat.le_trans (ih j hj) (Nat.le_max_left _ _)
    · have hji : j = i2 := by omega
      rw [hji]
      exact Nat.le_max_right _ _

/-- The best-update fold ignores values no larger than the current best size. -/
theorem bestUpd_no_change (i : Nat) (kf : Nat → Nat) : ∀ (js : List Nat) (bi bj bs : Nat),
    (∀ j ∈ js, kf j ≤ bs) → bestUpd i kf js (bi, bj, bs) = (bi, bj, bs) := by
  intro js
  induction js with
  | nil => intro bi bj bs _; rfl
  | cons j js2 ih =>
    intro bi bj bs h
    rw [bestUpd]
    have hj : kf j ≤ bs := h j (by simp)
    rw [if_neg (by omega)]
    exact ih bi bj bs (fun x hx => h x (by simp [hx]))

/-- The best-update fold depends on the value function only pointwise. -/
theorem bestUpd_congr (i : Nat) (kf kg : Nat → Nat) : ∀ (js : List Nat) (best : Nat × Nat × Nat),
    (∀ j, kf j = kg j) → bestUpd i kf js best = bestUpd i kg js best := by
  intro js
  induction js with
  | nil => intro best _; rfl
  | cons j js2 ih =>
    intro best h
    obtain ⟨bi, bj, bs⟩ := best
    rw [bestUpd, bestUpd, h j]
    exact ih _ h

/-- The best-update fold over an append. -/
theorem bestUpd_append (i : Nat) (kf : Nat → Nat) : ∀ (l1 l2 : List Nat) (best : Nat × Nat × Nat),
    bestUpd i kf (l1 ++ l2) best = bestUpd i kf l2 (bestUpd i kf l1 best) := by
  intro l1
  induction l1 with
  | nil => intro l2 best; rfl
  | cons j js ih =>
    intro l2 best
    obtain ⟨bi, bj, bs⟩ := best
    rw [List.cons_append, bestUpd, bestUpd]
    exact ih _ _

/-- Diagonal eligibility is exactly okD. -/
theorem eligRowD_diag (a : List Char) (i : Nat) : eligRowD a i i = okD a i := by
  unfold eligRowD eligJ okD
  by_cases h : (i < a.length)
  · simp [h]
  · simp [h]

/-- Diagonal runs vanish at unusable positions. -/
theorem dsr_eq_zero_of_not_okD {a : List Char} {i : Nat} (h : okD a i = false) :
    dsr a i = 0 := by
  cases i with
  | zero => rw [dsr, h]; rfl
  | succ i2 => rw [dsr, h]; rfl

/-- One step of the self-comparison DP fold. -/
theorem selfState_succ (a : List Char) (i : Nat) :
    selfState a (i + 1) = flmRow a a 0 a.length (selfState a i) i := by
  unfold selfState
  rw [List.range'_concat]
  rw [List.foldl_append]
  simp

/-- Invariant of the self-comparison DP: the run table is rLen and the best
block lies on the diagonal with the maximal diagonal run seen so far. -/
theorem selfState_inv (a : List Char) : ∀ i, i ≤ a.length →
    (∀ j, (selfState a i).j2len j = rLen a i j) ∧
    ∃ d, (selfState a i).best = (d, d, maxDsr a i) ∧ d + maxDsr a i ≤ a.length := by
  intro i
  induction i with
  | zero =>
    intro _
    refine ⟨fun j => rfl, 0, rfl, by simp [maxDsr]⟩
  | succ i2 ih =>
    intro hle
    have hi : i2 < a.length := by omega
    obtain ⟨hj2, d, hbest, hdle⟩ := ih (by omega)
    rw [selfState_succ]
    unfold flmRow
    dsimp only
    have hkf : ∀ j, rowRun (selfState a i2).j2len (eligJ a (a.getD i2 ' ') 0 a.length) j =
        rLen a (i2 + 1) j := by
      intro j
      unfold rowRun rLen eligRowD
      rw [hj2 (j - 1)]
    constructor
    · intro j
      exact hkf j
    · rw [bestUpd_congr i2 _ (rLen a (i2 + 1)) _ _ hkf, hbest]
      by_cases hok : okD a i2 = true
      · have hel : eligJ a (a.getD i2 ' ') 0 a.length i2 = true := by
          rw [show eligJ a (a.getD i2 ' ') 0 a.length i2 = eligRowD a i2 i2 from rfl,
            eligRowD_diag]
          exact hok
        have hsplit : List.range' 0 (a.length - 0) =
            List.range' 0 i2 ++ List.range' i2 (a.length - i2) := by
          rw [Nat.sub_zero]
          have h1 := List.range'_append_1 0 i2 (a.length - i2)
          rw [Nat.zero_add] at h1
          rw [h1]
          congr 1
          omega
        have hsucc : List.range' i2 (a.length - i2) =
            i2 :: List.range' (i2 + 1) (a.length - i2 - 1) := by
          conv_lhs => rw [show a.length - i2 = (a.length - i2 - 1) + 1 from by omega]
          rw [List.range'_succ]
        rw [hsplit, List.filter_append, bestUpd_append, hsucc,
          List.filter_cons_of_pos hel]
        have hstepA : bestUpd i2 (rLen a (i2 + 1))
            ((List.range' 0 i2).filter (eligJ a (a.getD i2 ' ') 0 a.length))
            (d, d, maxDsr a i2) = (d, d, maxDsr a i2) := by
          apply bestUpd_no_change
          intro j hj
          have hjm := (List.mem_filter.mp hj).1
          rw [List.mem_range'] at hjm
          obtain ⟨v, hv, rfl⟩ := hjm
          have hjlt : 0 + 1 * v < i2 := by omega
          exact Nat.le_trans (rLen_le_dsr a i2 _) (dsr_le_maxDsr a i2 _ hjlt)
        rw [hstepA, bestUpd]
        rw [rLen_diag]
        by_cases hlt : maxDsr a i2 < dsr a i2
        · rw [if_pos hlt]
          have hstepC : bestUpd i2 (rLen a (i2 + 1))
              ((List.range' (i2 + 1) (a.length - i2 - 1)).filter
                (eligJ a (a.getD i2 ' ') 0 a.length))
              (i2 + 1 - dsr a i2, i2 + 1 - dsr a i2, dsr a i2) =
              (i2 + 1 - dsr a i2, i2 + 1 - dsr a i2, dsr a i2) := by
            apply bestUpd_no_change
            intro j hj
            exact rLen_le_dsr_row a i2 j hi
          rw [hstepC]
          refine ⟨i2 + 1 - dsr a i2, ?_, ?_⟩
          · rw [maxDsr]
            rw [Nat.max_eq_right (Nat.le_of_lt hlt)]
          · rw [maxDsr, Nat.max_eq_right (Nat.le_of_lt hlt)]
            have hd1 := dsr_le_succ a i2
            omega
        · rw [if_neg hlt]
          have hstepC : bestUpd i2 (rLen a (i2 + 1))
              ((List.range' (i2 + 1) (a.length - i2 - 1)).filter
                (eligJ a (a.getD i2 ' ') 0 a.length))
              (d, d, maxDsr a i2) = (d, d, maxDsr a i2) := by
            apply bestUpd_no_change
            intro j hj
            exact Nat.le_trans (rLen_le_dsr_row a i2 j hi) (by omega)
          rw [hstepC]
          refine ⟨d, ?_, ?_⟩
          · rw [maxDsr, Nat.max_eq_left (by omega)]
          · rw [maxDsr, Nat.max_eq_left (by omega)]
            exact hdle
      · have hok2 : okD a i2 = false := by
          simpa using hok
        have hpop : popularCh a (a.getD i2 ' ') = true := by
          unfold okD at hok2
          have hdec : decide (i2 < a.length) = true := by simpa using hi
          rw [hdec] at hok2
          simpa using hok2
        have hfil : (List.range' 0 (a.length - 0)).filter
            (eligJ a (a.getD i2 ' ') 0 a.length) = [] := by
          rw [List.filter_eq_nil_iff]
          intro x hx
          unfold eligJ
          rw [hpop]
          simp
        rw [hfil]
        have hdsr0 : dsr a i2 = 0 := dsr_eq_zero_of_not_okD hok2
        refine ⟨d, ?_, ?_⟩
        · rw [show bestUpd i2 (rLen a (i2 + 1)) [] (d, d, maxDsr a i2) =
            (d, d, maxDsr a i2) from rfl]
          rw [maxDsr, hdsr0, Nat.max_eq_left (Nat.zero_le _)]
        · rw [maxDsr, hdsr0, Nat.max_eq_left (Nat.zero_le _)]
          exact hdle

/-- Left extension of a diagonal block in the self comparison reaches 0. -/
theorem extendLeft_diag (a : List Char) : ∀ (fuel d bs : Nat), d ≤ fuel →
    extendLeftNJ a a 0 0 fuel (d, d, bs) = (0, 0, bs + d) := by
  intro fuel
  induction fuel with
  | zero =>
    intro d bs hd
    have hd0 : d = 0 := by omega
    rw [hd0, extendLeftNJ]
    rfl
  | succ f ih =>
    intro d bs hd
    cases d with
    | zero =>
      rw [extendLeftNJ]
      rw [if_neg (by simp)]
      rfl
    | succ d2 =>
      rw [extendLeftNJ]
      rw [if_pos (by simp)]
      have h1 := ih d2 (bs + 1) (by omega)
      rw [show d2 + 1 - 1 = d2 from rfl, h1]
      have h2 : bs + 1 + d2 = bs + (d2 + 1) := by omega
      rw [h2]

/-- Right extension of a prefix block in the self comparison reaches the end. -/
theorem extendRight_diag (a : List Char) : ∀ (fuel bs : Nat), bs ≤ a.length →
    a.length - bs ≤ fuel →
    extendRightNJ a a a.length a.length fuel (0, 0, bs) = (0, 0, a.length) := by
  intro fuel
  induction fuel with
  | zero =>
    intro bs hbs hf
    have hbsn : bs = a.length := by omega
    rw [hbsn, extendRightNJ]
  | succ f ih =>
    intro bs hbs hf
    by_cases hlt : bs < a.length
    · rw [extendRightNJ]
      rw [if_pos (by simp [hlt])]
      exact ih (bs + 1) (by omega) (by omega)
    · have hbsn : bs = a.length := by omega
      rw [hbsn, extendRightNJ]
      rw [if_neg (by simp)]

/-- find_longest_match of a string against itself over the full windows is the
whole string. -/
theorem flm_self (a : List Char) (h : 0 < a.length) :
    find_longest_match a a 0 a.length 0 a.length = (0, 0, a.length) := by
  unfold find_longest_match
  dsimp only
  obtain ⟨-, d, hbest, hdle⟩ := selfState_inv a a.length (Nat.le_refl _)
  have hdp : (List.range' 0 (a.length - 0)).foldl (flmRow a a 0 a.length)
      { j2len := fun _ => 0, best := (0, 0, 0) } = selfState a a.length := by
    unfold selfState
    rw [Nat.sub_zero]
  rw [hdp, hbest]
  rw [extendLeft_diag a a.length d (maxDsr a a.length) (by omega)]
  rw [extendRight_diag a a.length (maxDsr a a.length + d) (by omega) (by omega)]

/-- The total matched size of a string against itself is its length. -/
theorem matchTotal_self (a : List Char) :
    matchTotal (a.length + 1) a a 0 a.length 0 a.length = a.length := by
  cases hn : a.length with
  | zero =>
    rw [matchTotal]
    rw [if_neg (by simp)]
  | succ m =>
    rw [matchTotal]
    rw [if_pos (by simp)]
    have hflm : find_longest_match a a 0 a.length 0 a.length = (0, 0, a.length) :=
      flm_self a (by omega)
    rw [hn] at hflm
    rw [hflm]
    dsimp only
    rw [if_pos (by omega)]
    have hleft : matchTotal (m + 1) a a 0 0 0 0 = 0 := by
      rw [matchTotal]
      rw [if_neg (by simp)]
    have hright : matchTotal (m + 1) a a (0 + (m + 1)) (m + 1) (0 + (m + 1)) (m + 1) = 0 := by
      rw [matchTotal]
      rw [if_neg (by simp)]
    rw [hleft, hright]
    omega

/-- The similarity of any string with itself is exactly 1. -/
theorem simScore_self (x : String) : simScore x x = 1 := by
  unfold simScore
  dsimp only
  by_cases hn : x.data.length = 0
  · rw [if_pos (by simp [hn])]
  · have hn2 : x.length ≠ 0 := hn
    rw [if_neg (by simp [hn2])]
    rw [matchTotal_self]
    have hne : ((x.data.length : ℚ)) ≠ 0 := Nat.cast_ne_zero.mpr hn
    have h2 : ((x.data.length : ℚ) + (x.data.length : ℚ)) = 2 * (x.data.length : ℚ) := by
      ring
    rw [h2, div_self (mul_ne_zero two_ne_zero hne)]

/-- Claim C8 as amended: the similarity comparison is symmetric when the two
strings are equal — both orders then give exactly 1 — while for distinct
strings symmetry can fail (see the counterexample). -/
theorem c8_amended_symm_on_equal (x y : String) (h : x = y) :
    simScore x y = simScore y x ∧ simScore x y = 1 := by
  subst h
  exact ⟨rfl, simScore_self x⟩

/-- Witness for the amended C8. -/
theorem c8_amended_symm_on_equal_witness :
    simScore "ab" "ab" = simScore "ab" "ab" ∧ simScore "ab" "ab" = 1 :=
  c8_amended_symm_on_equal "ab" "ab" rfl

/-- Claim C9 as amended: whenever two titles have the same normalized form —
in particular when they differ only in letter case and in punctuation whose
replacement by spaces collapses away — the similarity of the normalized forms
is exactly 1. -/
theorem c9_amended_equal_cleaned (x y : String)
    (h : clean_text_for_comparison x = clean_text_for_comparison y) :
    simScore (clean_text_for_comparison x) (clean_text_for_comparison y) = 1 := by
  rw [h]
  exact simScore_self _

/-- Witness for the amended C9 on the spec's example pair. -/
theorem c9_amended_equal_cleaned_witness :
    simScore (clean_text_for_comparison "Deep Learning: A Review!")
      (clean_text_for_comparison "deep learning a review") = 1 :=
  c9_amended_equal_cleaned _ _ (by decide)
